import Mathlib

/-!
Shallow embedding of the token-management service
(`src/token/token.service.ts` over `src/redis/redis.service.ts`).

The shared store is a Redis sorted set per key; we embed a sorted set as an
association list from member to score.  Scores are `Date.now() + duration`
values, hence nonnegative, so we use `Nat`.  List order abstracts Redis's
internal ordering: no service operation depends on it except `zpopmin`,
which we compute by explicit minimisation (lowest score, ties broken by the
lexicographically least member, as Redis does).
-/

/-- Tokens are opaque string identifiers (UUIDs in the source). -/
abbrev Token := String

/-- A Redis sorted set: members paired with scores. -/
abbrev ZSet := List (Token × Nat)

/-- `ZSCORE key member`: score of the member, or none if absent
(`RedisService.zscore`). -/
def zscore : ZSet → Token → Option Nat
  | [], _ => none
  | e :: rest, m => if e.1 = m then some e.2 else zscore rest m

/-- Membership of a member in a sorted set (JS truthiness of `zscore`). -/
def zmem (s : ZSet) (m : Token) : Bool :=
  (zscore s m).isSome

/-- Update every entry of member `m` to score `score`, touching nothing else. -/
def zsetUpdate : ZSet → Nat → Token → ZSet
  | [], _, _ => []
  | e :: rest, score, m =>
      (if e.1 = m then (m, score) else e) :: zsetUpdate rest score m

/-- `ZADD key score member`: update the score if the member exists, insert it
otherwise (`RedisService.zadd`). -/
def zadd (s : ZSet) (score : Nat) (m : Token) : ZSet :=
  if (zscore s m).isSome then zsetUpdate s score m else s ++ [(m, score)]

/-- `ZADD key s1 m1 s2 m2 ...`: bulk add, score/member pairs applied left to
right (`RedisService.zaddBulk`). -/
def zaddBulk (s : ZSet) : List (Nat × Token) → ZSet
  | [] => s
  | p :: rest => zaddBulk (zadd s p.1 p.2) rest

/-- `ZCARD key`: number of members (`RedisService.zcard`). -/
def zcard (s : ZSet) : Nat := s.length

/-- `ZREM key member`: remove all entries of the member
(`RedisService.zrem`, single member). -/
def zrem : ZSet → Token → ZSet
  | [], _ => []
  | e :: rest, m => if e.1 = m then zrem rest m else e :: zrem rest m

/-- Return value of `ZREM key member`: how many entries were removed. -/
def zremCount : ZSet → Token → Nat
  | [], _ => 0
  | e :: rest, m => (if e.1 = m then 1 else 0) + zremCount rest m

/-- `ZREM key m1 m2 ...`: remove every listed member
(`RedisService.zrem`, spread arguments). -/
def zremList : ZSet → List Token → ZSet
  | [], _ => []
  | e :: rest, ms => if e.1 ∈ ms then zremList rest ms else e :: zremList rest ms

/-- `ZRANGEBYSCORE key min max`: members whose score lies in `[mn, mx]`
(`RedisService.zrangebyscore`). -/
def zrangebyscore : ZSet → Nat → Nat → List Token
  | [], _, _ => []
  | e :: rest, mn, mx =>
      if mn ≤ e.2 ∧ e.2 ≤ mx then e.1 :: zrangebyscore rest mn mx
      else zrangebyscore rest mn mx

/-- `ZREMRANGEBYSCORE key min max`: drop every entry whose score lies in
`[mn, mx]` (`RedisService.zremrangebyscore`). -/
def zremrangebyscore : ZSet → Nat → Nat → ZSet
  | [], _, _ => []
  | e :: rest, mn, mx =>
      if mn ≤ e.2 ∧ e.2 ≤ mx then zremrangebyscore rest mn mx
      else e :: zremrangebyscore rest mn mx

/-- Code-point lexicographic strict order on character lists, used to model
the member order Redis applies between equal scores. -/
def strLtList : List Char → List Char → Bool
  | [], [] => false
  | [], _ :: _ => true
  | _ :: _, [] => false
  | a :: as, b :: bs =>
      if a.val < b.val then true
      else if b.val < a.val then false
      else strLtList as bs

/-- Lexicographic comparison of members. -/
def strLe (a b : Token) : Bool :=
  a == b || strLtList a.data b.data

/-- The smaller of two entries: lowest score first, ties broken by the
lexicographically least member (Redis sorted-set order). -/
def entryMin (a b : Token × Nat) : Token × Nat :=
  if a.2 < b.2 then a
  else if b.2 < a.2 then b
  else if strLe a.1 b.1 then a else b

/-- The minimal entry of a sorted set, if any. -/
def zminEntry : ZSet → Option (Token × Nat)
  | [] => none
  | e :: rest =>
      match zminEntry rest with
      | none => some e
      | some m => some (entryMin e m)

/-- `ZPOPMIN key`: atomically remove and return the lowest-scored member
(`RedisService.zpopmin`), or none when the set is empty. -/
def zpopmin (s : ZSet) : Option (Token × ZSet) :=
  match zminEntry s with
  | none => none
  | some e => some (e.1, zrem s e.1)

/-- A sorted set is well formed when no member appears twice; real Redis
guarantees this by construction. -/
def keysNodup (s : ZSet) : Prop :=
  (s.map Prod.fst).Nodup

/-!
The token service (`TokenService` in `src/token/token.service.ts`).

State is two Redis sorted sets: `ACTIVE_TOKENS` (the lease table) and
`TOKEN_POOL` (the pool).  Configuration values are read once in the
constructor; the code comment says they are in milliseconds.  Every read of
`Date.now()` in the source becomes an explicit time parameter here; an
operation that reads the clock once takes one `now`, and the sweep, which
reads the clock again for each bulk re-insertion and for the final purge,
takes one parameter per read.  `generateTokens` receives the freshly minted
UUID list as a parameter (`count` is its length).
-/

/-- Configuration as read in `TokenService`'s constructor (milliseconds). -/
structure Config where
  MAX_TOKENS : Nat
  TOKEN_LIFETIME : Nat
  KEEP_ALIVE_LIMIT : Nat
  TOKEN_CLEANUP_INTERVAL : Nat
  deriving DecidableEq

/-- Defaults from the constructor: 10000 tokens, 1 minute, 5 minutes,
1 second (all in milliseconds per the source comment). -/
def defaultConfig : Config :=
  { MAX_TOKENS := 10000
    TOKEN_LIFETIME := 60 * 1 * 1000
    KEEP_ALIVE_LIMIT := 60 * 5 * 1000
    TOKEN_CLEANUP_INTERVAL := 1 * 1000 }

/-- The two Redis keys the service owns. -/
structure ServiceState where
  active_tokens : ZSet
  token_pool : ZSet
  deriving DecidableEq

/-- The one failure `generateTokens` can raise (its capacity throw). -/
inductive TokenError where
  | CapacityExceeded
  deriving DecidableEq

deriving instance DecidableEq for Except

/-- `TokenService.generateTokens(count)`: capacity check against `ZCARD`
of the pool, then bulk `ZADD` of the fresh tokens, each scored
`Date.now() + KEEP_ALIVE_LIMIT * 1000`. -/
def generateTokens (cfg : Config) (now : Nat) (tokens : List Token)
    (st : ServiceState) : Except TokenError (List Token × ServiceState) :=
  let currentCount := zcard st.token_pool
  if currentCount + tokens.length > cfg.MAX_TOKENS then
    Except.error TokenError.CapacityExceeded
  else
    let score := now + cfg.KEEP_ALIVE_LIMIT * 1000
    let zaddArgs := tokens.map (fun token => (score, token))
    Except.ok (tokens, { st with token_pool := zaddBulk st.token_pool zaddArgs })

/-- `TokenService.assignToken()`: `ZPOPMIN` on the pool; on success `ZADD`
into the lease table scored `Date.now() + TOKEN_LIFETIME * 1000`. -/
def assignToken (cfg : Config) (now : Nat) (st : ServiceState) :
    Option Token × ServiceState :=
  match zpopmin st.token_pool with
  | none => (none, st)
  | some (token, pool) =>
      (some token,
        { active_tokens :=
            zadd st.active_tokens (now + cfg.TOKEN_LIFETIME * 1000) token
          token_pool := pool })

/-- `TokenService.keepAlive(token)`: check the lease table first, then the
pool; refresh whichever holds the token, else return false. -/
def keepAlive (cfg : Config) (now : Nat) (token : Token)
    (st : ServiceState) : Bool × ServiceState :=
  match zscore st.active_tokens token with
  | some _ =>
      (true,
        { st with
            active_tokens :=
              zadd st.active_tokens (now + cfg.TOKEN_LIFETIME * 1000) token })
  | none =>
      match zscore st.token_pool token with
      | none => (false, st)
      | some _ =>
          (true,
            { st with
                token_pool :=
                  zadd st.token_pool (now + cfg.KEEP_ALIVE_LIMIT * 1000) token })

/-- `TokenService.unblockToken(token)`: `ZREM` from the lease table; if
nothing was removed return false, otherwise `ZADD` back into the pool
scored `Date.now() + KEEP_ALIVE_LIMIT * 1000`. -/
def unblockToken (cfg : Config) (now : Nat) (token : Token)
    (st : ServiceState) : Bool × ServiceState :=
  let removed := zremCount st.active_tokens token
  let active := zrem st.active_tokens token
  if removed = 0 then (false, { st with active_tokens := active })
  else
    (true,
      { active_tokens := active
        token_pool := zadd st.token_pool (now + cfg.KEEP_ALIVE_LIMIT * 1000) token })

/-- `TokenService.deleteToken(token)`: `ZREM` from both keys, always true. -/
def deleteToken (token : Token) (st : ServiceState) : Bool × ServiceState :=
  (true,
    { active_tokens := zrem st.active_tokens token
      token_pool := zrem st.token_pool token })

/-- `TokenService.cleanupTokens()` (the periodic sweep): fetch lease-table
entries scored in `[0, Date.now()]`, remove them and re-add each to the
pool scored `Date.now() + KEEP_ALIVE_LIMIT * 1000` (the clock is read per
re-inserted token inside `flatMap`), then `ZREMRANGEBYSCORE` the pool over
`[0, Date.now()]` with yet another clock read. -/
def cleanupTokens (cfg : Config) (tFetch : Nat) (tIns : Token → Nat)
    (tPurge : Nat) (st : ServiceState) : ServiceState :=
  let expiredActiveTokens := zrangebyscore st.active_tokens 0 tFetch
  let st1 :=
    if 0 < expiredActiveTokens.length then
      let poolInsertArgs := expiredActiveTokens.map
        (fun token => (tIns token + cfg.KEEP_ALIVE_LIMIT * 1000, token))
      { active_tokens := zremList st.active_tokens expiredActiveTokens
        token_pool := zaddBulk st.token_pool poolInsertArgs }
    else st
  { st1 with token_pool := zremrangebyscore st1.token_pool 0 tPurge }

/-- A single externally triggered operation, with the clock values its
source reads. -/
inductive Op where
  | issue (now : Nat) (tokens : List Token)
  | lease (now : Nat)
  | renew (now : Nat) (token : Token)
  | release (now : Nat) (token : Token)
  | revoke (token : Token)
  | reclaim (tFetch : Nat) (tIns : Token → Nat) (tPurge : Nat)

/-- Run one operation to completion, keeping only the state (a failed
`issue` throws before any write, leaving the store unchanged). -/
def step (cfg : Config) (st : ServiceState) : Op → ServiceState
  | Op.issue now tokens =>
      match generateTokens cfg now tokens st with
      | Except.ok r => r.2
      | Except.error _ => st
  | Op.lease now => (assignToken cfg now st).2
  | Op.renew now token => (keepAlive cfg now token st).2
  | Op.release now token => (unblockToken cfg now token st).2
  | Op.revoke token => (deleteToken token st).2
  | Op.reclaim tFetch tIns tPurge => cleanupTokens cfg tFetch tIns tPurge st

/-- Run a sequence of operations to completion, in order. -/
def run (cfg : Config) (st : ServiceState) : List Op → ServiceState
  | [] => st
  | op :: ops => run cfg (step cfg st op) ops

/-- Invariant I1 and property P1 of the spec: no token is in both the pool
and the lease table. -/
def mutualExclusion (st : ServiceState) : Prop :=
  ∀ t : Token, ¬(zmem st.token_pool t = true ∧ zmem st.active_tokens t = true)

/-- A token that is in neither collection. -/
def absent (t : Token) (st : ServiceState) : Prop :=
  zmem st.token_pool t = false ∧ zmem st.active_tokens t = false

/-- An operation that cannot mint the token `t` (its `issue` payload does
not contain `t`; every other operation only moves existing members). -/
def avoidsInsert (t : Token) : Op → Prop
  | Op.issue _ tokens => t ∉ tokens
  | _ => True

/-- The store is empty at first boot. -/
def initialState : ServiceState :=
  { active_tokens := [], token_pool := [] }

-- Basic facts about the store operations.

theorem zscore_mem {s : ZSet} {t : Token} {v : Nat}
    (h : zscore s t = some v) : (t, v) ∈ s := by
  induction s with
  | nil => simp [zscore] at h
  | cons e rest ih =>
    by_cases he : e.1 = t
    · simp [zscore, he] at h
      have : e = (t, v) := by cases e; simp_all
      rw [this]
      exact List.mem_cons_self _ _
    · simp [zscore, he] at h
      exact List.mem_cons_of_mem _ (ih h)

theorem zmem_of_entry {s : ZSet} {t : Token} {v : Nat}
    (h : (t, v) ∈ s) : zmem s t = true := by
  induction s with
  | nil => simp at h
  | cons e rest ih =>
    rcases List.mem_cons.mp h with h | h
    · simp [zmem, zscore, ← h]
    · by_cases he : e.1 = t
      · simp [zmem, zscore, he]
      · simpa [zmem, zscore, he] using ih h

theorem zmem_exists_score {s : ZSet} {t : Token} (h : zmem s t = true) :
    ∃ v, zscore s t = some v := by
  unfold zmem at h
  cases hv : zscore s t with
  | none => simp [hv] at h
  | some v => exact ⟨v, rfl⟩

theorem keysNodup_zscore {s : ZSet} {t : Token} {v : Nat}
    (hnd : keysNodup s) (h : (t, v) ∈ s) : zscore s t = some v := by
  induction s with
  | nil => simp at h
  | cons e rest ih =>
    unfold keysNodup at hnd
    simp only [List.map_cons, List.nodup_cons] at hnd
    rcases List.mem_cons.mp h with h | h
    · simp [zscore, ← h]
    · have het : e.1 ≠ t := by
        intro he
        exact hnd.1 (he ▸ (List.mem_map.mpr ⟨(t, v), h, rfl⟩))
      simp [zscore, het]
      exact ih hnd.2 h

theorem zscore_zsetUpdate_self {s : ZSet} {m : Token} (sc : Nat)
    (h : (zscore s m).isSome) : zscore (zsetUpdate s sc m) m = some sc := by
  induction s with
  | nil => simp [zscore] at h
  | cons e rest ih =>
    by_cases he : e.1 = m
    · simp [zsetUpdate, he, zscore]
    · simp [zscore, he] at h
      simpa [zsetUpdate, he, zscore] using ih (by simp [h])

theorem zscore_zsetUpdate_other {s : ZSet} {m t : Token} (sc : Nat)
    (hne : t ≠ m) : zscore (zsetUpdate s sc m) t = zscore s t := by
  induction s with
  | nil => simp [zsetUpdate]
  | cons e rest ih =>
    by_cases he : e.1 = m
    · simp [zsetUpdate, he, zscore, Ne.symm hne, ih]
    · simp [zsetUpdate, he, zscore, ih]

theorem zscore_append_of_none {s t2 : ZSet} {m : Token}
    (h : zscore s m = none) : zscore (s ++ t2) m = zscore t2 m := by
  induction s with
  | nil => simp
  | cons e rest ih =>
    by_cases he : e.1 = m
    · simp [zscore, he] at h
    · simp [zscore, he] at h ⊢
      exact ih h

theorem zscore_append_of_some {s t2 : ZSet} {m : Token} {v : Nat}
    (h : zscore s m = some v) : zscore (s ++ t2) m = some v := by
  induction s with
  | nil => simp [zscore] at h
  | cons e rest ih =>
    by_cases he : e.1 = m
    · simp [zscore, he] at h ⊢
      exact h
    · simp [zscore, he] at h ⊢
      exact ih h

theorem zscore_zadd_self (s : ZSet) (sc : Nat) (m : Token) :
    zscore (zadd s sc m) m = some sc := by
  unfold zadd
  by_cases h : (zscore s m).isSome
  · simp [h, zscore_zsetUpdate_self sc h]
  · have hn : zscore s m = none := by
      cases hv : zscore s m with
      | none => rfl
      | some v => simp [hv] at h
    simp [h, zscore_append_of_none hn, zscore]

theorem zscore_zadd_other (s : ZSet) (sc : Nat) {m t : Token} (hne : t ≠ m) :
    zscore (zadd s sc m) t = zscore s t := by
  unfold zadd
  by_cases h : (zscore s m).isSome
  · simp [h, zscore_zsetUpdate_other sc hne]
  · cases hv : zscore s t with
    | none => simp [h, zscore_append_of_none hv, zscore, Ne.symm hne]
    | some v => simp [h, zscore_append_of_some hv]

theorem zmem_zadd_iff (s : ZSet) (sc : Nat) (m t : Token) :
    zmem (zadd s sc m) t = true ↔ zmem s t = true ∨ t = m := by
  by_cases he : t = m
  · subst he
    simp [zmem, zscore_zadd_self]
  · simp [zmem, zscore_zadd_other s sc he, he]

theorem zscore_zrem_self (s : ZSet) (m : Token) :
    zscore (zrem s m) m = none := by
  induction s with
  | nil => simp [zrem, zscore]
  | cons e rest ih =>
    by_cases he : e.1 = m
    · simpa [zrem, he] using ih
    · simpa [zrem, he, zscore] using ih

theorem zscore_zrem_other (s : ZSet) {m t : Token} (hne : t ≠ m) :
    zscore (zrem s m) t = zscore s t := by
  induction s with
  | nil => simp [zrem]
  | cons e rest ih =>
    by_cases he : e.1 = m
    · simp [zrem, he, zscore, Ne.symm hne, ih]
    · simp [zrem, he, zscore, ih]

theorem zrem_of_absent {s : ZSet} {m : Token}
    (h : zscore s m = none) : zrem s m = s := by
  induction s with
  | nil => simp [zrem]
  | cons e rest ih =>
    by_cases he : e.1 = m
    · simp [zscore, he] at h
    · simp [zscore, he] at h
      simp [zrem, he, ih h]

theorem mem_zrem_sub {s : ZSet} {m : Token} {x : Token × Nat}
    (h : x ∈ zrem s m) : x ∈ s := by
  induction s with
  | nil => simp [zrem] at h
  | cons e rest ih =>
    by_cases he : e.1 = m
    · simp [zrem, he] at h
      exact List.mem_cons_of_mem _ (ih h)
    · simp [zrem, he] at h
      rcases h with h | h
      · simp [h]
      · exact List.mem_cons_of_mem _ (ih h)

theorem zremCount_eq_zero_iff (s : ZSet) (m : Token) :
    zremCount s m = 0 ↔ zscore s m = none := by
  induction s with
  | nil => simp [zremCount, zscore]
  | cons e rest ih =>
    by_cases he : e.1 = m
    · simp [zremCount, he, zscore]
    · simp [zremCount, he, zscore, ih]

theorem zscore_zremList_mem (s : ZSet) {ms : List Token} {t : Token}
    (h : t ∈ ms) : zscore (zremList s ms) t = none := by
  induction s with
  | nil => simp [zremList, zscore]
  | cons e rest ih =>
    by_cases he : e.1 ∈ ms
    · simpa [zremList, he] using ih
    · have : e.1 ≠ t := fun hc => he (hc ▸ h)
      simpa [zremList, he, zscore, this] using ih

theorem zscore_zremList_not_mem (s : ZSet) {ms : List Token} {t : Token}
    (h : t ∉ ms) : zscore (zremList s ms) t = zscore s t := by
  induction s with
  | nil => simp [zremList]
  | cons e rest ih =>
    by_cases he : e.1 ∈ ms
    · have : e.1 ≠ t := fun hc => h (hc ▸ he)
      simp [zremList, he, zscore, this, ih]
    · simp [zremList, he, zscore, ih]

theorem mem_zrangebyscore_of_zscore {s : ZSet} {t : Token} {v mn mx : Nat}
    (h : zscore s t = some v) (h1 : mn ≤ v) (h2 : v ≤ mx) :
    t ∈ zrangebyscore s mn mx := by
  induction s with
  | nil => simp [zscore] at h
  | cons e rest ih =>
    by_cases he : e.1 = t
    · simp [zscore, he] at h
      subst h
      simp [zrangebyscore, h1, h2, he]
    · simp [zscore, he] at h
      by_cases hr : mn ≤ e.2 ∧ e.2 ≤ mx
      · simp [zrangebyscore, hr]
        right
        exact ih h
      · simpa [zrangebyscore, hr] using ih h

theorem mem_zrangebyscore_elim {s : ZSet} {t : Token} {mn mx : Nat}
    (h : t ∈ zrangebyscore s mn mx) :
    ∃ v, (t, v) ∈ s ∧ mn ≤ v ∧ v ≤ mx := by
  induction s with
  | nil => simp [zrangebyscore] at h
  | cons e rest ih =>
    by_cases hr : mn ≤ e.2 ∧ e.2 ≤ mx
    · simp [zrangebyscore, hr] at h
      rcases h with h | h
      · exact ⟨e.2, by cases e; simp_all, hr.1, hr.2⟩
      · obtain ⟨v, hv, h1, h2⟩ := ih h
        exact ⟨v, List.mem_cons_of_mem _ hv, h1, h2⟩
    · simp [zrangebyscore, hr] at h
      obtain ⟨v, hv, h1, h2⟩ := ih h
      exact ⟨v, List.mem_cons_of_mem _ hv, h1, h2⟩

theorem zscore_zremrange_keep {s : ZSet} {t : Token} {v mn mx : Nat}
    (h : zscore s t = some v) (hout : ¬(mn ≤ v ∧ v ≤ mx)) :
    zscore (zremrangebyscore s mn mx) t = some v := by
  induction s with
  | nil => simp [zscore] at h
  | cons e rest ih =>
    by_cases he : e.1 = t
    · simp [zscore, he] at h
      subst h
      simp [zremrangebyscore, hout, zscore, he]
    · simp [zscore, he] at h
      by_cases hr : mn ≤ e.2 ∧ e.2 ≤ mx
      · simpa [zremrangebyscore, hr] using ih h
      · simpa [zremrangebyscore, hr, zscore, he] using ih h

theorem mem_zremrange_elim {s : ZSet} {mn mx : Nat} {x : Token × Nat}
    (h : x ∈ zremrangebyscore s mn mx) : x ∈ s ∧ ¬(mn ≤ x.2 ∧ x.2 ≤ mx) := by
  induction s with
  | nil => simp [zremrangebyscore] at h
  | cons e rest ih =>
    by_cases hr : mn ≤ e.2 ∧ e.2 ≤ mx
    · simp [zremrangebyscore, hr] at h
      exact ⟨List.mem_cons_of_mem _ (ih h).1, (ih h).2⟩
    · simp [zremrangebyscore, hr] at h
      rcases h with h | h
      · exact ⟨by simp [h], h ▸ hr⟩
      · exact ⟨List.mem_cons_of_mem _ (ih h).1, (ih h).2⟩

theorem zscore_zaddBulk_not_mem (pairs : List (Nat × Token)) (s : ZSet)
    {t : Token} (h : ∀ p ∈ pairs, p.2 ≠ t) :
    zscore (zaddBulk s pairs) t = zscore s t := by
  induction pairs generalizing s with
  | nil => simp [zaddBulk]
  | cons p rest ih =>
    have hp : p.2 ≠ t := h p (List.mem_cons_self _ _)
    rw [zaddBulk, ih _ (fun q hq => h q (List.mem_cons_of_mem _ hq)),
      zscore_zadd_other _ _ (Ne.symm hp)]

theorem zscore_zaddBulk_mem (pairs : List (Nat × Token)) (s : ZSet)
    {t : Token} {v : Nat}
    (hall : ∀ p ∈ pairs, p.2 = t → p.1 = v)
    (hex : ∃ p ∈ pairs, p.2 = t) :
    zscore (zaddBulk s pairs) t = some v := by
  induction pairs generalizing s with
  | nil => simp at hex
  | cons p rest ih =>
    by_cases hr : ∃ q ∈ rest, q.2 = t
    · exact ih _ (fun q hq => hall q (List.mem_cons_of_mem _ hq)) hr
    · obtain ⟨q, hq, hqt⟩ := hex
      rcases List.mem_cons.mp hq with hq | hq
      · subst hq
        have hv : q.1 = v := hall q (List.mem_cons_self _ _) hqt
        rw [zaddBulk,
          zscore_zaddBulk_not_mem rest _ (fun r hrr hrt => hr ⟨r, hrr, hrt⟩),
          hqt, zscore_zadd_self, hv]
      · exact absurd ⟨q, hq, hqt⟩ hr

theorem zmem_zaddBulk_iff (pairs : List (Nat × Token)) (s : ZSet) (t : Token) :
    zmem (zaddBulk s pairs) t = true ↔
      zmem s t = true ∨ ∃ p ∈ pairs, p.2 = t := by
  induction pairs generalizing s with
  | nil => simp [zaddBulk]
  | cons p rest ih =>
    rw [zaddBulk, ih]
    constructor
    · rintro (h | h)
      · rcases (zmem_zadd_iff s p.1 p.2 t).mp h with h | h
        · exact Or.inl h
        · exact Or.inr ⟨p, List.mem_cons_self _ _, h.symm⟩
      · exact Or.inr (by obtain ⟨q, hq, hqt⟩ := h; exact ⟨q, List.mem_cons_of_mem _ hq, hqt⟩)
    · rintro (h | ⟨q, hq, hqt⟩)
      · exact Or.inl ((zmem_zadd_iff s p.1 p.2 t).mpr (Or.inl h))
      · rcases List.mem_cons.mp hq with hq | hq
        · exact Or.inl ((zmem_zadd_iff s p.1 p.2 t).mpr (Or.inr (hq ▸ hqt).symm))
        · exact Or.inr ⟨q, hq, hqt⟩

theorem zcard_zadd_fresh (s : ZSet) (sc : Nat) {m : Token}
    (h : zmem s m = false) : zcard (zadd s sc m) = zcard s + 1 := by
  unfold zmem at h
  unfold zadd
  rw [if_neg (by simp [h])]
  simp [zcard]

theorem zcard_zaddBulk_fresh (pairs : List (Nat × Token)) (s : ZSet)
    (hnd : (pairs.map Prod.snd).Nodup)
    (hfresh : ∀ p ∈ pairs, zmem s p.2 = false) :
    zcard (zaddBulk s pairs) = zcard s + pairs.length := by
  induction pairs generalizing s with
  | nil => simp [zaddBulk]
  | cons p rest ih =>
    simp only [List.map_cons, List.nodup_cons] at hnd
    rw [zaddBulk, ih _ hnd.2, zcard_zadd_fresh s p.1 (hfresh p (List.mem_cons_self _ _))]
    · simp only [List.length_cons]
      omega
    · intro q hq
      have hne : q.2 ≠ p.2 := by
        intro he
        exact hnd.1 (he ▸ (List.mem_map.mpr ⟨q, hq, rfl⟩))
      have := hfresh q (List.mem_cons_of_mem _ hq)
      unfold zmem at this ⊢
      rw [zscore_zadd_other s p.1 hne]
      exact this

theorem entryMin_cases (a b : Token × Nat) : entryMin a b = a ∨ entryMin a b = b := by
  unfold entryMin
  by_cases h1 : a.2 < b.2
  · simp [h1]
  · by_cases h2 : b.2 < a.2
    · simp [h1, h2]
    · by_cases h3 : strLe a.1 b.1 = true <;> simp [h1, h2, h3]

theorem entryMin_le_left (a b : Token × Nat) : (entryMin a b).2 ≤ a.2 := by
  unfold entryMin
  by_cases h1 : a.2 < b.2
  · simp [h1]
  · by_cases h2 : b.2 < a.2
    · simp [h1, h2]
      omega
    · by_cases h3 : strLe a.1 b.1 = true
      · simp [h1, h2, h3]
      · simp [h1, h2, h3]
        omega

theorem entryMin_le_right (a b : Token × Nat) : (entryMin a b).2 ≤ b.2 := by
  unfold entryMin
  by_cases h1 : a.2 < b.2
  · simp [h1]
    omega
  · by_cases h2 : b.2 < a.2
    · simp [h1, h2]
    · by_cases h3 : strLe a.1 b.1 = true
      · simp [h1, h2, h3]
        omega
      · simp [h1, h2, h3]

theorem zminEntry_eq_none_iff (s : ZSet) : zminEntry s = none ↔ s = [] := by
  cases s with
  | nil => simp [zminEntry]
  | cons a rest =>
    simp only [zminEntry]
    cases zminEntry rest <;> simp

theorem zminEntry_mem : ∀ {s : ZSet} {e : Token × Nat},
    zminEntry s = some e → e ∈ s := by
  intro s
  induction s with
  | nil => intro e h; simp [zminEntry] at h
  | cons a rest ih =>
    intro e h
    rw [zminEntry] at h
    cases hr : zminEntry rest with
    | none =>
      rw [hr] at h
      simp at h
      simp [h]
    | some m =>
      rw [hr] at h
      simp at h
      rcases entryMin_cases a m with hc | hc
      · rw [← h, hc]
        exact List.mem_cons_self _ _
      · rw [← h, hc]
        exact List.mem_cons_of_mem _ (ih hr)

theorem zminEntry_le : ∀ {s : ZSet} {e : Token × Nat},
    zminEntry s = some e → ∀ x ∈ s, e.2 ≤ x.2 := by
  intro s
  induction s with
  | nil => intro e h; simp [zminEntry] at h
  | cons a rest ih =>
    intro e h x hx
    rw [zminEntry] at h
    cases hr : zminEntry rest with
    | none =>
      rw [hr] at h
      simp at h
      have : rest = [] := (zminEntry_eq_none_iff rest).mp hr
      subst this
      simp at hx
      simp [← h, hx]
    | some m =>
      rw [hr] at h
      simp at h
      rcases List.mem_cons.mp hx with hx | hx
      · rw [← h, hx]
        exact entryMin_le_left a m
      · calc e.2 ≤ m.2 := by rw [← h]; exact entryMin_le_right a m
          _ ≤ x.2 := ih hr x hx

theorem mutualExclusion_initial : mutualExclusion initialState := by
  intro t h
  simp [initialState, zmem, zscore] at h

-- Helper facts about the service operations, shared by several claims.

theorem zmem_of_zscore_some {s : ZSet} {t : Token} {v : Nat}
    (h : zscore s t = some v) : zmem s t = true := by
  simp [zmem, h]

theorem zmem_false_iff_zscore_none (s : ZSet) (t : Token) :
    zmem s t = false ↔ zscore s t = none := by
  unfold zmem
  cases zscore s t <;> simp

/-- Claim C2: `issue` (generateTokens) fails with `CapacityExceeded` exactly
when the current pool size plus the requested count exceeds `MAX_TOKENS`;
a failed issue performs no mutation, and a successful issue of fresh,
pairwise-distinct tokens grows the pool by exactly the count. -/
theorem C2_issue_capacity (cfg : Config) (now : Nat) (tokens : List Token)
    (st : ServiceState) (_hpos : 0 < tokens.length) :
    (generateTokens cfg now tokens st
        = Except.error TokenError.CapacityExceeded ↔
      zcard st.token_pool + tokens.length > cfg.MAX_TOKENS) ∧
    (zcard st.token_pool + tokens.length > cfg.MAX_TOKENS →
      step cfg st (Op.issue now tokens) = st) ∧
    (zcard st.token_pool + tokens.length ≤ cfg.MAX_TOKENS →
      tokens.Nodup → (∀ t ∈ tokens, zmem st.token_pool t = false) →
      ∃ st2, generateTokens cfg now tokens st = Except.ok (tokens, st2) ∧
        st2.active_tokens = st.active_tokens ∧
        zcard st2.token_pool = zcard st.token_pool + tokens.length) := by
  refine ⟨?_, ?_, ?_⟩
  · unfold generateTokens
    by_cases h : zcard st.token_pool + tokens.length > cfg.MAX_TOKENS <;>
      simp [h]
  · intro h
    simp [step, generateTokens, h]
  · intro h hnd hfresh
    unfold generateTokens
    rw [if_neg (by omega)]
    refine ⟨_, rfl, rfl, ?_⟩
    have hnd2 : (((tokens.map
        (fun token => (now + cfg.KEEP_ALIVE_LIMIT * 1000, token))).map
          Prod.snd)).Nodup := by
      simpa [List.map_map, Function.comp] using hnd
    have hfr2 : ∀ p ∈ tokens.map
        (fun token => (now + cfg.KEEP_ALIVE_LIMIT * 1000, token)),
        zmem st.token_pool p.2 = false := by
      intro p hp
      obtain ⟨t, ht, rfl⟩ := List.mem_map.mp hp
      exact hfresh t ht
    rw [zcard_zaddBulk_fresh _ _ hnd2 hfr2, List.length_map]

theorem C2_issue_capacity_witness :
    (0 : Nat) < 1 ∧
    generateTokens { defaultConfig with MAX_TOKENS := 1 } 3 ["b"]
        { active_tokens := [], token_pool := [("a", 300000003)] }
      = Except.error TokenError.CapacityExceeded ∧
    step { defaultConfig with MAX_TOKENS := 1 }
        { active_tokens := [], token_pool := [("a", 300000003)] }
        (Op.issue 3 ["b"])
      = { active_tokens := [], token_pool := [("a", 300000003)] } := by
  have h := C2_issue_capacity { defaultConfig with MAX_TOKENS := 1 } 3 ["b"]
    { active_tokens := [], token_pool := [("a", 300000003)] } (by decide)
  exact ⟨by decide, h.1.mpr (by decide), h.2.1 (by decide)⟩

/-- Claim C3 is contradicted by the code: the constructor stores durations
in milliseconds (defaults 60000 and 300000, one minute and five minutes
per its own comments), yet every write site adds `value * 1000` to
`Date.now()`, so with the default configuration a lease deadline is
written 60000000 ms (about 16.7 hours) ahead instead of the configured
60 s, and a pool deadline 300000000 ms ahead instead of 300 s. -/
theorem C3_deadline_written_value :
    defaultConfig.TOKEN_LIFETIME = 60000 ∧
    defaultConfig.KEEP_ALIVE_LIMIT = 300000 ∧
    zscore (assignToken defaultConfig 0
        { active_tokens := [], token_pool := [("tok", 5)] }).2.active_tokens
        "tok" = some 60000000 ∧
    (60000000 : Nat) ≠ 0 + defaultConfig.TOKEN_LIFETIME ∧
    zscore (unblockToken defaultConfig 0 "tok"
        { active_tokens := [("tok", 5)], token_pool := [] }).2.token_pool
        "tok" = some 300000000 ∧
    (300000000 : Nat) ≠ 0 + defaultConfig.KEEP_ALIVE_LIMIT := by
  refine ⟨rfl, rfl, by decide, by decide, by decide, by decide⟩

theorem assignToken_pop {st : ServiceState} {e : Token × Nat}
    (cfg : Config) (now : Nat) (hm : zminEntry st.token_pool = some e) :
    (assignToken cfg now st).1 = some e.1 ∧
    (assignToken cfg now st).2.token_pool = zrem st.token_pool e.1 := by
  unfold assignToken zpopmin
  rw [hm]
  exact ⟨rfl, rfl⟩

/-- Claim C4: `lease` (assignToken) pops the pool member with the lowest
deadline score and returns null exactly when the pool is empty; over
consecutive calls with no interleaved mutation, the popped entries carry
non-decreasing pool deadlines, and the second call returns the minimum of
the remainder. -/
theorem C4_lease_pop_ordering (cfg : Config) (now now2 : Nat)
    (st : ServiceState) :
    ((assignToken cfg now st).1 = none ↔ st.token_pool = []) ∧
    (∀ e, zminEntry st.token_pool = some e →
      (assignToken cfg now st).1 = some e.1 ∧
      (∀ x ∈ st.token_pool, e.2 ≤ x.2) ∧
      (assignToken cfg now st).2.token_pool = zrem st.token_pool e.1 ∧
      (∀ e2, zminEntry (assignToken cfg now st).2.token_pool = some e2 →
        (assignToken cfg now2 (assignToken cfg now st).2).1 = some e2.1 ∧
        e.2 ≤ e2.2)) := by
  constructor
  · unfold assignToken zpopmin
    cases hm : zminEntry st.token_pool with
    | none => simpa using (zminEntry_eq_none_iff st.token_pool).mp hm
    | some e =>
      simp only []
      constructor
      · intro h
        simp at h
      · intro h
        rw [h] at hm
        simp [zminEntry] at hm
  · intro e hm
    have hpop := assignToken_pop cfg now hm
    refine ⟨hpop.1, zminEntry_le hm, hpop.2, ?_⟩
    intro e2 hm2
    constructor
    · exact (assignToken_pop cfg now2 hm2).1
    · have he2 : e2 ∈ (assignToken cfg now st).2.token_pool := zminEntry_mem hm2
      rw [hpop.2] at he2
      exact zminEntry_le hm e2 (mem_zrem_sub he2)

theorem C4_lease_pop_ordering_witness :
    ((assignToken defaultConfig 0 initialState).1 = none ↔
      initialState.token_pool = []) ∧
    (assignToken defaultConfig 0
        { active_tokens := [], token_pool := [("b", 9), ("a", 3)] }).1
      = some "a" ∧
    (assignToken defaultConfig 1
        (assignToken defaultConfig 0
          { active_tokens := [], token_pool := [("b", 9), ("a", 3)] }).2).1
      = some "b" ∧
    (3 : Nat) ≤ 9 := by
  refine ⟨(C4_lease_pop_ordering defaultConfig 0 0 initialState).1, ?_, ?_, ?_⟩
  · exact ((C4_lease_pop_ordering defaultConfig 0 1
      { active_tokens := [], token_pool := [("b", 9), ("a", 3)] }).2
      ("a", 3) (by decide)).1
  · exact (((C4_lease_pop_ordering defaultConfig 0 1
      { active_tokens := [], token_pool := [("b", 9), ("a", 3)] }).2
      ("a", 3) (by decide)).2.2.2 ("b", 9) (by decide)).1
  · exact (((C4_lease_pop_ordering defaultConfig 0 1
      { active_tokens := [], token_pool := [("b", 9), ("a", 3)] }).2
      ("a", 3) (by decide)).2.2.2 ("b", 9) (by decide)).2

theorem keepAlive_leased {cfg : Config} {now : Nat} {tok : Token}
    {st : ServiceState} (h : zmem st.active_tokens tok = true) :
    keepAlive cfg now tok st =
      (true,
        { st with
            active_tokens :=
              zadd st.active_tokens (now + cfg.TOKEN_LIFETIME * 1000) tok }) := by
  obtain ⟨v, hv⟩ := zmem_exists_score h
  unfold keepAlive
  rw [hv]

theorem keepAlive_pooled {cfg : Config} {now : Nat} {tok : Token}
    {st : ServiceState} (ha : zmem st.active_tokens tok = false)
    (hp : zmem st.token_pool tok = true) :
    keepAlive cfg now tok st =
      (true,
        { st with
            token_pool :=
              zadd st.token_pool (now + cfg.KEEP_ALIVE_LIMIT * 1000) tok }) := by
  obtain ⟨v, hv⟩ := zmem_exists_score hp
  have ha2 := (zmem_false_iff_zscore_none _ _).mp ha
  unfold keepAlive
  rw [ha2, hv]

theorem keepAlive_absent {cfg : Config} {now : Nat} {tok : Token}
    {st : ServiceState} (ha : zmem st.active_tokens tok = false)
    (hp : zmem st.token_pool tok = false) :
    keepAlive cfg now tok st = (false, st) := by
  have ha2 := (zmem_false_iff_zscore_none _ _).mp ha
  have hp2 := (zmem_false_iff_zscore_none _ _).mp hp
  unfold keepAlive
  rw [ha2, hp2]

/-- Claim C6: `renew` (keepAlive) checks the lease table first and
refreshes it with `now + TOKEN_LIFETIME * 1000`; failing that it checks
the pool and refreshes it with `now + KEEP_ALIVE_LIMIT * 1000`; it
returns false exactly when the token is in neither collection, in which
case it mutates nothing. -/
theorem C6_renew_dual_location (cfg : Config) (now : Nat) (tok : Token)
    (st : ServiceState) :
    (zmem st.active_tokens tok = true →
      (keepAlive cfg now tok st).1 = true ∧
      zscore (keepAlive cfg now tok st).2.active_tokens tok
        = some (now + cfg.TOKEN_LIFETIME * 1000) ∧
      (keepAlive cfg now tok st).2.token_pool = st.token_pool) ∧
    (zmem st.active_tokens tok = false → zmem st.token_pool tok = true →
      (keepAlive cfg now tok st).1 = true ∧
      zscore (keepAlive cfg now tok st).2.token_pool tok
        = some (now + cfg.KEEP_ALIVE_LIMIT * 1000) ∧
      (keepAlive cfg now tok st).2.active_tokens = st.active_tokens) ∧
    ((keepAlive cfg now tok st).1 = false ↔
      zmem st.active_tokens tok = false ∧ zmem st.token_pool tok = false) ∧
    (zmem st.active_tokens tok = false → zmem st.token_pool tok = false →
      (keepAlive cfg now tok st).2 = st) := by
  refine ⟨?_, ?_, ?_, ?_⟩
  · intro h
    rw [keepAlive_leased h]
    exact ⟨rfl, zscore_zadd_self _ _ _, rfl⟩
  · intro ha hp
    rw [keepAlive_pooled ha hp]
    exact ⟨rfl, zscore_zadd_self _ _ _, rfl⟩
  · constructor
    · intro h
      by_cases ha : zmem st.active_tokens tok = true
      · rw [keepAlive_leased ha] at h
        simp at h
      · have ha2 : zmem st.active_tokens tok = false := by
          simpa using ha
        by_cases hp : zmem st.token_pool tok = true
        · rw [keepAlive_pooled ha2 hp] at h
          simp at h
        · exact ⟨ha2, by simpa using hp⟩
    · intro ⟨ha, hp⟩
      rw [keepAlive_absent ha hp]
  · intro ha hp
    rw [keepAlive_absent ha hp]

theorem C6_renew_dual_location_witness :
    ((keepAlive defaultConfig 7 "x"
        { active_tokens := [("x", 2)], token_pool := [] }).1 = true ∧
      zscore (keepAlive defaultConfig 7 "x"
        { active_tokens := [("x", 2)], token_pool := [] }).2.active_tokens "x"
        = some (7 + defaultConfig.TOKEN_LIFETIME * 1000)) ∧
    ((keepAlive defaultConfig 7 "x"
        { active_tokens := [], token_pool := [("x", 2)] }).1 = true ∧
      zscore (keepAlive defaultConfig 7 "x"
        { active_tokens := [], token_pool := [("x", 2)] }).2.token_pool "x"
        = some (7 + defaultConfig.KEEP_ALIVE_LIMIT * 1000)) ∧
    (keepAlive defaultConfig 7 "x" initialState).2 = initialState := by
  refine ⟨⟨?_, ?_⟩, ⟨?_, ?_⟩, ?_⟩
  · exact ((C6_renew_dual_location defaultConfig 7 "x"
      { active_tokens := [("x", 2)], token_pool := [] }).1 (by decide)).1
  · exact ((C6_renew_dual_location defaultConfig 7 "x"
      { active_tokens := [("x", 2)], token_pool := [] }).1 (by decide)).2.1
  · exact ((C6_renew_dual_location defaultConfig 7 "x"
      { active_tokens := [], token_pool := [("x", 2)] }).2.1 (by decide)
      (by decide)).1
  · exact ((C6_renew_dual_location defaultConfig 7 "x"
      { active_tokens := [], token_pool := [("x", 2)] }).2.1 (by decide)
      (by decide)).2.1
  · exact (C6_renew_dual_location defaultConfig 7 "x"
      initialState).2.2.2 (by decide) (by decide)

theorem unblockToken_absent {cfg : Config} {now : Nat} {tok : Token}
    {st : ServiceState} (h : zmem st.active_tokens tok = false) :
    unblockToken cfg now tok st = (false, st) := by
  have h2 := (zmem_false_iff_zscore_none _ _).mp h
  unfold unblockToken
  rw [if_pos ((zremCount_eq_zero_iff _ _).mpr h2), zrem_of_absent h2]

theorem unblockToken_leased {cfg : Config} {now : Nat} {tok : Token}
    {st : ServiceState} (h : zmem st.active_tokens tok = true) :
    unblockToken cfg now tok st =
      (true,
        { active_tokens := zrem st.active_tokens tok
          token_pool :=
            zadd st.token_pool (now + cfg.KEEP_ALIVE_LIMIT * 1000) tok }) := by
  obtain ⟨v, hv⟩ := zmem_exists_score h
  have : zremCount st.active_tokens tok ≠ 0 := by
    intro hc
    rw [(zremCount_eq_zero_iff _ _).mp hc] at hv
    cases hv
  unfold unblockToken
  rw [if_neg this]

/-- Claim C7: `release` (unblockToken) of a token not in the lease table
returns false and leaves the state unchanged; of a leased token it moves
the token from the lease table to the pool scored
`now + KEEP_ALIVE_LIMIT * 1000` and returns true, and a second
consecutive release of the same token returns false. -/
theorem C7_release_semantics (cfg : Config) (now now2 : Nat) (tok : Token)
    (st : ServiceState) :
    (zmem st.active_tokens tok = false →
      unblockToken cfg now tok st = (false, st)) ∧
    (zmem st.active_tokens tok = true →
      (unblockToken cfg now tok st).1 = true ∧
      zmem (unblockToken cfg now tok st).2.active_tokens tok = false ∧
      zscore (unblockToken cfg now tok st).2.token_pool tok
        = some (now + cfg.KEEP_ALIVE_LIMIT * 1000) ∧
      (unblockToken cfg now2 tok (unblockToken cfg now tok st).2).1
        = false) := by
  refine ⟨unblockToken_absent, ?_⟩
  intro h
  rw [unblockToken_leased h]
  have hgone : zmem (zrem st.active_tokens tok) tok = false :=
    (zmem_false_iff_zscore_none _ _).mpr (zscore_zrem_self _ _)
  refine ⟨rfl, hgone, zscore_zadd_self _ _ _, ?_⟩
  rw [unblockToken_absent hgone]

theorem C7_release_semantics_witness :
    ((unblockToken defaultConfig 4 "x"
        { active_tokens := [("x", 2)], token_pool := [] }).1 = true ∧
      zscore (unblockToken defaultConfig 4 "x"
        { active_tokens := [("x", 2)], token_pool := [] }).2.token_pool "x"
        = some (4 + defaultConfig.KEEP_ALIVE_LIMIT * 1000) ∧
      (unblockToken defaultConfig 9 "x"
        (unblockToken defaultConfig 4 "x"
          { active_tokens := [("x", 2)], token_pool := [] }).2).1 = false) ∧
    unblockToken defaultConfig 4 "y" initialState = (false, initialState) := by
  have h := (C7_release_semantics defaultConfig 4 9 "x"
    { active_tokens := [("x", 2)], token_pool := [] }).2 (by decide)
  exact ⟨⟨h.1, h.2.2.1, h.2.2.2⟩,
    (C7_release_semantics defaultConfig 4 9 "y" initialState).1 (by decide)⟩

/-- Claim C9: while a token stays in the lease table, every `renew`
returns true and rewrites its deadline to `now + TOKEN_LIFETIME * 1000`;
with a non-decreasing clock a later renewal therefore writes a deadline
at least as large as an earlier one. -/
theorem C9_renew_monotonic (cfg : Config) (tok : Token) (st : ServiceState)
    (now1 now2 : Nat) (hleased : zmem st.active_tokens tok = true)
    (hclock : now1 ≤ now2) :
    (keepAlive cfg now1 tok st).1 = true ∧
    zscore (keepAlive cfg now1 tok st).2.active_tokens tok
      = some (now1 + cfg.TOKEN_LIFETIME * 1000) ∧
    (keepAlive cfg now2 tok (keepAlive cfg now1 tok st).2).1 = true ∧
    zscore (keepAlive cfg now2 tok
        (keepAlive cfg now1 tok st).2).2.active_tokens tok
      = some (now2 + cfg.TOKEN_LIFETIME * 1000) ∧
    now1 + cfg.TOKEN_LIFETIME * 1000 ≤ now2 + cfg.TOKEN_LIFETIME * 1000 := by
  rw [keepAlive_leased hleased]
  have hstill : zmem (zadd st.active_tokens
      (now1 + cfg.TOKEN_LIFETIME * 1000) tok) tok = true :=
    zmem_of_zscore_some (zscore_zadd_self _ _ _)
  rw [keepAlive_leased hstill]
  exact ⟨rfl, zscore_zadd_self _ _ _, rfl, zscore_zadd_self _ _ _,
    Nat.add_le_add_right hclock _⟩

theorem C9_renew_monotonic_witness :
    (keepAlive defaultConfig 5 "x"
        { active_tokens := [("x", 2)], token_pool := [] }).1 = true ∧
    zscore (keepAlive defaultConfig 8 "x"
        (keepAlive defaultConfig 5 "x"
          { active_tokens := [("x", 2)], token_pool := [] }).2).2.active_tokens
        "x" = some (8 + defaultConfig.TOKEN_LIFETIME * 1000) ∧
    (5 : Nat) + defaultConfig.TOKEN_LIFETIME * 1000
      ≤ 8 + defaultConfig.TOKEN_LIFETIME * 1000 := by
  have h := C9_renew_monotonic defaultConfig "x"
    { active_tokens := [("x", 2)], token_pool := [] } 5 8 (by decide) (by decide)
  exact ⟨h.1, h.2.2.2.1, h.2.2.2.2⟩

theorem zmem_zremrange_sub {s : ZSet} {mn mx : Nat} {t : Token}
    (h : zmem (zremrangebyscore s mn mx) t = true) : zmem s t = true := by
  obtain ⟨v, hv⟩ := zmem_exists_score h
  exact zmem_of_entry (mem_zremrange_elim (zscore_mem hv)).1

theorem cleanupTokens_eq_pos {cfg : Config} {tFetch tPurge : Nat}
    {tIns : Token → Nat} {st : ServiceState}
    (h : 0 < (zrangebyscore st.active_tokens 0 tFetch).length) :
    cleanupTokens cfg tFetch tIns tPurge st =
      { active_tokens :=
          zremList st.active_tokens (zrangebyscore st.active_tokens 0 tFetch)
        token_pool :=
          zremrangebyscore
            (zaddBulk st.token_pool
              ((zrangebyscore st.active_tokens 0 tFetch).map
                (fun token =>
                  (tIns token + cfg.KEEP_ALIVE_LIMIT * 1000, token))))
            0 tPurge } := by
  unfold cleanupTokens
  simp [h]

theorem cleanupTokens_eq_zero {cfg : Config} {tFetch tPurge : Nat}
    {tIns : Token → Nat} {st : ServiceState}
    (h : ¬0 < (zrangebyscore st.active_tokens 0 tFetch).length) :
    cleanupTokens cfg tFetch tIns tPurge st =
      { st with token_pool := zremrangebyscore st.token_pool 0 tPurge } := by
  unfold cleanupTokens
  simp [h]

/-- Claim C1: from any state satisfying mutual exclusion (invariant I1/P1),
each of the six operations, run sequentially to completion, yields a state
still satisfying it; for `issue` the freshly minted identifiers are assumed
not to collide with leased tokens (UUID freshness). -/
theorem C1_mutual_exclusion_preserved (cfg : Config) (st : ServiceState)
    (hME : mutualExclusion st) :
    (∀ now tokens, (∀ t ∈ tokens, zmem st.active_tokens t = false) →
      mutualExclusion (step cfg st (Op.issue now tokens))) ∧
    (∀ now, mutualExclusion (step cfg st (Op.lease now))) ∧
    (∀ now tok, mutualExclusion (step cfg st (Op.renew now tok))) ∧
    (∀ now tok, mutualExclusion (step cfg st (Op.release now tok))) ∧
    (∀ tok, mutualExclusion (step cfg st (Op.revoke tok))) ∧
    (∀ tFetch tIns tPurge,
      mutualExclusion (step cfg st (Op.reclaim tFetch tIns tPurge))) := by
  refine ⟨?_, ?_, ?_, ?_, ?_, ?_⟩
  · intro now tokens hfresh
    by_cases hc : zcard st.token_pool + tokens.length > cfg.MAX_TOKENS
    · simpa [step, generateTokens, hc] using hME
    · have hstep : step cfg st (Op.issue now tokens) =
          { st with
              token_pool := zaddBulk st.token_pool
                (tokens.map
                  (fun token =>
                    (now + cfg.KEEP_ALIVE_LIMIT * 1000, token))) } := by
        simp [step, generateTokens, hc]
      rw [hstep]
      rintro t ⟨hp, ha⟩
      rcases (zmem_zaddBulk_iff _ _ _).mp hp with hp2 | ⟨p, hpm, hpt⟩
      · exact hME t ⟨hp2, ha⟩
      · obtain ⟨tok0, htok0, rfl⟩ := List.mem_map.mp hpm
        have hpt2 : tok0 = t := hpt
        subst hpt2
        have ha2 : zmem st.active_tokens tok0 = true := ha
        rw [hfresh tok0 htok0] at ha2
        simp at ha2
  · intro now
    simp only [step]
    cases hm : zminEntry st.token_pool with
    | none =>
      have hpop : assignToken cfg now st = (none, st) := by
        unfold assignToken zpopmin
        rw [hm]
      rw [hpop]
      exact hME
    | some e =>
      have hst : (assignToken cfg now st).2 =
          { active_tokens :=
              zadd st.active_tokens (now + cfg.TOKEN_LIFETIME * 1000) e.1
            token_pool := zrem st.token_pool e.1 } := by
        unfold assignToken zpopmin
        rw [hm]
      rw [hst]
      rintro t ⟨hp, ha⟩
      by_cases hte : t = e.1
      · subst hte
        rw [(zmem_false_iff_zscore_none _ _).mpr (zscore_zrem_self _ _)] at hp
        simp at hp
      · have hp2 : zmem st.token_pool t = true := by
          unfold zmem at hp ⊢
          rwa [zscore_zrem_other _ hte] at hp
        have ha2 : zmem st.active_tokens t = true := by
          rcases (zmem_zadd_iff _ _ _ _).mp ha with h | h
          · exact h
          · exact absurd h hte
        exact hME t ⟨hp2, ha2⟩
  · intro now tok
    simp only [step]
    by_cases ha : zmem st.active_tokens tok = true
    · rw [keepAlive_leased ha]
      rintro t ⟨hp, hact⟩
      rcases (zmem_zadd_iff _ _ _ _).mp hact with h | h
      · exact hME t ⟨hp, h⟩
      · subst h
        exact hME t ⟨hp, ha⟩
    · have ha2 : zmem st.active_tokens tok = false := by simpa using ha
      by_cases hp : zmem st.token_pool tok = true
      · rw [keepAlive_pooled ha2 hp]
        rintro t ⟨hpl, hact⟩
        rcases (zmem_zadd_iff _ _ _ _).mp hpl with h | h
        · exact hME t ⟨h, hact⟩
        · subst h
          exact hME t ⟨hp, hact⟩
      · rw [keepAlive_absent ha2 (by simpa using hp)]
        exact hME
  · intro now tok
    simp only [step]
    by_cases ha : zmem st.active_tokens tok = true
    · rw [unblockToken_leased ha]
      rintro t ⟨hp, hact⟩
      by_cases hte : t = tok
      · subst hte
        rw [(zmem_false_iff_zscore_none _ _).mpr (zscore_zrem_self _ _)] at hact
        simp at hact
      · have hact2 : zmem st.active_tokens t = true := by
          unfold zmem at hact ⊢
          rwa [zscore_zrem_other _ hte] at hact
        have hp2 : zmem st.token_pool t = true := by
          rcases (zmem_zadd_iff _ _ _ _).mp hp with h | h
          · exact h
          · exact absurd h hte
        exact hME t ⟨hp2, hact2⟩
    · rw [unblockToken_absent (by simpa using ha)]
      exact hME
  · intro tok
    simp only [step, deleteToken]
    rintro t ⟨hp, hact⟩
    by_cases hte : t = tok
    · subst hte
      rw [(zmem_false_iff_zscore_none _ _).mpr (zscore_zrem_self _ _)] at hp
      cases hp
    · unfold zmem at hp hact
      rw [zscore_zrem_other _ hte] at hp hact
      exact hME t ⟨hp, hact⟩
  · intro tFetch tIns tPurge
    simp only [step]
    by_cases hlen : 0 < (zrangebyscore st.active_tokens 0 tFetch).length
    · rw [cleanupTokens_eq_pos hlen]
      rintro t ⟨hp, hact⟩
      by_cases hexp : t ∈ zrangebyscore st.active_tokens 0 tFetch
      · rw [(zmem_false_iff_zscore_none _ _).mpr
          (zscore_zremList_mem _ hexp)] at hact
        simp at hact
      · have hact2 : zmem st.active_tokens t = true := by
          unfold zmem at hact ⊢
          rwa [zscore_zremList_not_mem _ hexp] at hact
        have hp1 := zmem_zremrange_sub hp
        rcases (zmem_zaddBulk_iff _ _ _).mp hp1 with hp2 | ⟨p, hpm, hpt⟩
        · exact hME t ⟨hp2, hact2⟩
        · obtain ⟨tok0, htok0, rfl⟩ := List.mem_map.mp hpm
          exact hexp (hpt ▸ htok0)
    · rw [cleanupTokens_eq_zero hlen]
      rintro t ⟨hp, hact⟩
      exact hME t ⟨zmem_zremrange_sub hp, hact⟩

theorem C1_mutual_exclusion_preserved_witness :
    mutualExclusion (step defaultConfig initialState (Op.issue 0 ["a"])) ∧
    mutualExclusion (step defaultConfig initialState (Op.lease 0)) ∧
    mutualExclusion (step defaultConfig initialState (Op.renew 0 "a")) ∧
    mutualExclusion (step defaultConfig initialState (Op.release 0 "a")) ∧
    mutualExclusion (step defaultConfig initialState (Op.revoke "a")) ∧
    mutualExclusion
      (step defaultConfig initialState (Op.reclaim 0 (fun _ => 0) 0)) := by
  have h := C1_mutual_exclusion_preserved defaultConfig initialState
    mutualExclusion_initial
  exact ⟨h.1 0 ["a"] (by decide), h.2.1 0, h.2.2.1 0 "a", h.2.2.2.1 0 "a",
    h.2.2.2.2.1 "a", h.2.2.2.2.2 0 (fun _ => 0) 0⟩

theorem mutualExclusion_of_pool (st : ServiceState)
    (h : ∀ e ∈ st.token_pool, zmem st.active_tokens e.1 = false) :
    mutualExclusion st := by
  rintro t ⟨hp, ha⟩
  obtain ⟨v, hv⟩ := zmem_exists_score hp
  have h2 : zmem st.active_tokens t = false := h (t, v) (zscore_mem hv)
  rw [h2] at ha
  simp at ha

/-- Claim C5: one sweep removes every lease-table entry scored at most the
fetch time and re-inserts each such token into the pool scored
`tIns + KEEP_ALIVE_LIMIT * 1000` (so it is back in the pool, obtainable by
lease, whenever that fresh score clears the purge threshold); unexpired
lease entries and unexpired pool entries are untouched; and after the final
purge no pool entry scored at most the purge time survives. -/
theorem C5_reclaim_sweep (cfg : Config) (tFetch tPurge : Nat)
    (tIns : Token → Nat) (st : ServiceState)
    (hME : mutualExclusion st) (hnd : keysNodup st.active_tokens) :
    (∀ tok s, zscore st.active_tokens tok = some s → s ≤ tFetch →
      zmem (cleanupTokens cfg tFetch tIns tPurge st).active_tokens tok
        = false ∧
      (tPurge < tIns tok + cfg.KEEP_ALIVE_LIMIT * 1000 →
        zscore (cleanupTokens cfg tFetch tIns tPurge st).token_pool tok
          = some (tIns tok + cfg.KEEP_ALIVE_LIMIT * 1000))) ∧
    (∀ tok s, zscore st.active_tokens tok = some s → tFetch < s →
      zscore (cleanupTokens cfg tFetch tIns tPurge st).active_tokens tok
        = some s) ∧
    (∀ tok s, zscore st.token_pool tok = some s → tPurge < s →
      zscore (cleanupTokens cfg tFetch tIns tPurge st).token_pool tok
        = some s) ∧
    (∀ e ∈ (cleanupTokens cfg tFetch tIns tPurge st).token_pool,
      tPurge < e.2) := by
  refine ⟨?_, ?_, ?_, ?_⟩
  · intro tok s hs hle
    have htok : tok ∈ zrangebyscore st.active_tokens 0 tFetch :=
      mem_zrangebyscore_of_zscore hs (Nat.zero_le _) hle
    have hlen : 0 < (zrangebyscore st.active_tokens 0 tFetch).length :=
      List.length_pos_of_mem htok
    rw [cleanupTokens_eq_pos hlen]
    constructor
    · exact (zmem_false_iff_zscore_none _ _).mpr (zscore_zremList_mem _ htok)
    · intro hkeep
      have h1 : zscore
          (zaddBulk st.token_pool
            ((zrangebyscore st.active_tokens 0 tFetch).map
              (fun token =>
                (tIns token + cfg.KEEP_ALIVE_LIMIT * 1000, token)))) tok
          = some (tIns tok + cfg.KEEP_ALIVE_LIMIT * 1000) := by
        apply zscore_zaddBulk_mem
        · intro p hp hpt
          obtain ⟨tok0, _, rfl⟩ := List.mem_map.mp hp
          have : tok0 = tok := hpt
          rw [this]
        · exact ⟨(tIns tok + cfg.KEEP_ALIVE_LIMIT * 1000, tok),
            List.mem_map.mpr ⟨tok, htok, rfl⟩, rfl⟩
      exact zscore_zremrange_keep h1 (by omega)
  · intro tok s hs hgt
    have hnotexp : tok ∉ zrangebyscore st.active_tokens 0 tFetch := by
      intro hmem
      obtain ⟨v, hv, _, hvle⟩ := mem_zrangebyscore_elim hmem
      have := keysNodup_zscore hnd hv
      rw [hs] at this
      have : s = v := by injection this
      omega
    by_cases hlen : 0 < (zrangebyscore st.active_tokens 0 tFetch).length
    · rw [cleanupTokens_eq_pos hlen]
      show zscore (zremList st.active_tokens _) tok = some s
      rw [zscore_zremList_not_mem _ hnotexp]
      exact hs
    · rw [cleanupTokens_eq_zero hlen]
      exact hs
  · intro tok s hs hgt
    by_cases hlen : 0 < (zrangebyscore st.active_tokens 0 tFetch).length
    · rw [cleanupTokens_eq_pos hlen]
      have hnotexp : ∀ p ∈ (zrangebyscore st.active_tokens 0 tFetch).map
          (fun token => (tIns token + cfg.KEEP_ALIVE_LIMIT * 1000, token)),
          p.2 ≠ tok := by
        intro p hp hpt
        obtain ⟨tok0, htok0, rfl⟩ := List.mem_map.mp hp
        have heq : tok0 = tok := hpt
        subst heq
        obtain ⟨v, hv, _, _⟩ := mem_zrangebyscore_elim htok0
        exact hME tok0 ⟨zmem_of_zscore_some hs, zmem_of_entry hv⟩
      have h1 : zscore
          (zaddBulk st.token_pool
            ((zrangebyscore st.active_tokens 0 tFetch).map
              (fun token =>
                (tIns token + cfg.KEEP_ALIVE_LIMIT * 1000, token)))) tok
          = some s := by
        rw [zscore_zaddBulk_not_mem _ _ hnotexp]
        exact hs
      exact zscore_zremrange_keep h1 (by omega)
    · rw [cleanupTokens_eq_zero hlen]
      exact zscore_zremrange_keep hs (by omega)
  · intro e he
    by_cases hlen : 0 < (zrangebyscore st.active_tokens 0 tFetch).length
    · rw [cleanupTokens_eq_pos hlen] at he
      have := (mem_zremrange_elim he).2
      omega
    · rw [cleanupTokens_eq_zero hlen] at he
      have := (mem_zremrange_elim he).2
      omega

theorem C5_reclaim_sweep_witness :
    zmem (cleanupTokens defaultConfig 10 (fun _ => 10) 11
      { active_tokens := [("x", 10), ("w", 99)],
        token_pool := [("y", 4), ("z", 50)] }).active_tokens "x" = false ∧
    zscore (cleanupTokens defaultConfig 10 (fun _ => 10) 11
      { active_tokens := [("x", 10), ("w", 99)],
        token_pool := [("y", 4), ("z", 50)] }).token_pool "x"
      = some (10 + defaultConfig.KEEP_ALIVE_LIMIT * 1000) ∧
    zscore (cleanupTokens defaultConfig 10 (fun _ => 10) 11
      { active_tokens := [("x", 10), ("w", 99)],
        token_pool := [("y", 4), ("z", 50)] }).active_tokens "w"
      = some 99 ∧
    zscore (cleanupTokens defaultConfig 10 (fun _ => 10) 11
      { active_tokens := [("x", 10), ("w", 99)],
        token_pool := [("y", 4), ("z", 50)] }).token_pool "z"
      = some 50 := by
  have h := C5_reclaim_sweep defaultConfig 10 11 (fun _ => 10)
    { active_tokens := [("x", 10), ("w", 99)],
      token_pool := [("y", 4), ("z", 50)] }
    (mutualExclusion_of_pool _ (by decide)) (by unfold keysNodup; decide)
  refine ⟨(h.1 "x" 10 (by decide) (by decide)).1,
    (h.1 "x" 10 (by decide) (by decide)).2 (by decide),
    h.2.1 "w" 99 (by decide) (by decide),
    h.2.2.1 "z" 50 (by decide) (by decide)⟩

/-- Claim C10: within one sweep run, if the configured keep-alive duration
is positive and the clock advances by less than that duration between a
re-insertion read and the purge read, every token the sweep moved from the
lease table into the pool carries a score strictly above the purge
threshold, so the final purge does not delete it. -/
theorem C10_sweep_keeps_recycled (cfg : Config) (tFetch tPurge : Nat)
    (tIns : Token → Nat) (st : ServiceState)
    (hK : 0 < cfg.KEEP_ALIVE_LIMIT)
    (hAdv : ∀ tok ∈ zrangebyscore st.active_tokens 0 tFetch,
      tPurge < tIns tok + cfg.KEEP_ALIVE_LIMIT) :
    ∀ tok ∈ zrangebyscore st.active_tokens 0 tFetch,
      tPurge < tIns tok + cfg.KEEP_ALIVE_LIMIT * 1000 ∧
      zscore (cleanupTokens cfg tFetch tIns tPurge st).token_pool tok
        = some (tIns tok + cfg.KEEP_ALIVE_LIMIT * 1000) := by
  intro tok htok
  have hlen : 0 < (zrangebyscore st.active_tokens 0 tFetch).length :=
    List.length_pos_of_mem htok
  have hbig : tPurge < tIns tok + cfg.KEEP_ALIVE_LIMIT * 1000 := by
    have := hAdv tok htok
    omega
  refine ⟨hbig, ?_⟩
  rw [cleanupTokens_eq_pos hlen]
  have h1 : zscore
      (zaddBulk st.token_pool
        ((zrangebyscore st.active_tokens 0 tFetch).map
          (fun token => (tIns token + cfg.KEEP_ALIVE_LIMIT * 1000, token))))
      tok = some (tIns tok + cfg.KEEP_ALIVE_LIMIT * 1000) := by
    apply zscore_zaddBulk_mem
    · intro p hp hpt
      obtain ⟨tok0, _, rfl⟩ := List.mem_map.mp hp
      have : tok0 = tok := hpt
      rw [this]
    · exact ⟨(tIns tok + cfg.KEEP_ALIVE_LIMIT * 1000, tok),
        List.mem_map.mpr ⟨tok, htok, rfl⟩, rfl⟩
  exact zscore_zremrange_keep h1 (by omega)

theorem C10_sweep_keeps_recycled_witness :
    (11 : Nat) < 10 + defaultConfig.KEEP_ALIVE_LIMIT * 1000 ∧
    zscore (cleanupTokens defaultConfig 10 (fun _ => 10) 11
      { active_tokens := [("x", 10)], token_pool := [] }).token_pool "x"
      = some (10 + defaultConfig.KEEP_ALIVE_LIMIT * 1000) := by
  have h := C10_sweep_keeps_recycled defaultConfig 10 11 (fun _ => 10)
    { active_tokens := [("x", 10)], token_pool := [] }
    (by decide) (by decide) "x" (by decide)
  exact ⟨h.1, h.2⟩

theorem bool_eq_false_of_not {b : Bool} (h : ¬b = true) : b = false := by
  cases b
  · rfl
  · exact absurd rfl h

theorem assignToken_mem {cfg : Config} {now : Nat} {st : ServiceState}
    {tok : Token} (h : (assignToken cfg now st).1 = some tok) :
    zmem st.token_pool tok = true := by
  cases hm : zminEntry st.token_pool with
  | none =>
    have : (assignToken cfg now st).1 = none := by
      unfold assignToken zpopmin
      rw [hm]
    rw [this] at h
    cases h
  | some e =>
    have he : (assignToken cfg now st).1 = some e.1 :=
      (assignToken_pop cfg now hm).1
    rw [he] at h
    have : e.1 = tok := by injection h
    subst this
    have hmem : e ∈ st.token_pool := zminEntry_mem hm
    cases e
    exact zmem_of_entry hmem

theorem absent_step {cfg : Config} {t : Token} {st : ServiceState}
    (op : Op) (ha : absent t st) (hav : avoidsInsert t op) :
    absent t (step cfg st op) := by
  obtain ⟨hpool, hact⟩ := ha
  have hpool2 := (zmem_false_iff_zscore_none _ _).mp hpool
  have hact2 := (zmem_false_iff_zscore_none _ _).mp hact
  cases op with
  | issue now tokens =>
    by_cases hc : zcard st.token_pool + tokens.length > cfg.MAX_TOKENS
    · simpa [step, generateTokens, hc] using ⟨hpool, hact⟩
    · have hstep : step cfg st (Op.issue now tokens) =
          { st with
              token_pool := zaddBulk st.token_pool
                (tokens.map
                  (fun token =>
                    (now + cfg.KEEP_ALIVE_LIMIT * 1000, token))) } := by
        simp [step, generateTokens, hc]
      rw [hstep]
      refine ⟨?_, hact⟩
      apply bool_eq_false_of_not
      intro hmem
      rcases (zmem_zaddBulk_iff _ _ _).mp hmem with h | ⟨p, hp, hpt⟩
      · rw [hpool] at h
        cases h
      · obtain ⟨tok0, htok0, rfl⟩ := List.mem_map.mp hp
        have : tok0 = t := hpt
        subst this
        exact hav htok0
  | lease now =>
    simp only [step]
    cases hm : zminEntry st.token_pool with
    | none =>
      have hpop : assignToken cfg now st = (none, st) := by
        unfold assignToken zpopmin
        rw [hm]
      rw [hpop]
      exact ⟨hpool, hact⟩
    | some e =>
      have hst : (assignToken cfg now st).2 =
          { active_tokens :=
              zadd st.active_tokens (now + cfg.TOKEN_LIFETIME * 1000) e.1
            token_pool := zrem st.token_pool e.1 } := by
        unfold assignToken zpopmin
        rw [hm]
      rw [hst]
      have hne : e.1 ≠ t := by
        intro heq
        have hmem : e ∈ st.token_pool := zminEntry_mem hm
        have : zmem st.token_pool e.1 = true := by
          cases e
          exact zmem_of_entry hmem
        rw [heq, hpool] at this
        cases this
      constructor
      · show zmem (zrem st.token_pool e.1) t = false
        rw [zmem_false_iff_zscore_none, zscore_zrem_other _ (Ne.symm hne)]
        exact hpool2
      · show zmem (zadd st.active_tokens _ e.1) t = false
        rw [zmem_false_iff_zscore_none,
          zscore_zadd_other _ _ (Ne.symm hne)]
        exact hact2
  | renew now tok =>
    simp only [step]
    by_cases hl : zmem st.active_tokens tok = true
    · rw [keepAlive_leased hl]
      have hne : tok ≠ t := by
        intro heq
        rw [heq, hact] at hl
        cases hl
      refine ⟨hpool, ?_⟩
      show zmem (zadd st.active_tokens _ tok) t = false
      rw [zmem_false_iff_zscore_none, zscore_zadd_other _ _ (Ne.symm hne)]
      exact hact2
    · have hl2 : zmem st.active_tokens tok = false := bool_eq_false_of_not hl
      by_cases hpl : zmem st.token_pool tok = true
      · rw [keepAlive_pooled hl2 hpl]
        have hne : tok ≠ t := by
          intro heq
          rw [heq, hpool] at hpl
          cases hpl
        refine ⟨?_, hact⟩
        show zmem (zadd st.token_pool _ tok) t = false
        rw [zmem_false_iff_zscore_none, zscore_zadd_other _ _ (Ne.symm hne)]
        exact hpool2
      · rw [keepAlive_absent hl2 (bool_eq_false_of_not hpl)]
        exact ⟨hpool, hact⟩
  | release now tok =>
    simp only [step]
    by_cases hl : zmem st.active_tokens tok = true
    · rw [unblockToken_leased hl]
      have hne : tok ≠ t := by
        intro heq
        rw [heq, hact] at hl
        cases hl
      constructor
      · show zmem (zadd st.token_pool _ tok) t = false
        rw [zmem_false_iff_zscore_none, zscore_zadd_other _ _ (Ne.symm hne)]
        exact hpool2
      · show zmem (zrem st.active_tokens tok) t = false
        rw [zmem_false_iff_zscore_none, zscore_zrem_other _ (Ne.symm hne)]
        exact hact2
    · rw [unblockToken_absent (bool_eq_false_of_not hl)]
      exact ⟨hpool, hact⟩
  | revoke tok =>
    simp only [step, deleteToken]
    constructor
    · show zmem (zrem st.token_pool tok) t = false
      rw [zmem_false_iff_zscore_none]
      by_cases hte : t = tok
      · subst hte
        exact zscore_zrem_self _ _
      · rw [zscore_zrem_other _ hte]
        exact hpool2
    · show zmem (zrem st.active_tokens tok) t = false
      rw [zmem_false_iff_zscore_none]
      by_cases hte : t = tok
      · subst hte
        exact zscore_zrem_self _ _
      · rw [zscore_zrem_other _ hte]
        exact hact2
  | reclaim tFetch tIns tPurge =>
    simp only [step]
    have hnotexp : t ∉ zrangebyscore st.active_tokens 0 tFetch := by
      intro hmem
      obtain ⟨v, hv, _, _⟩ := mem_zrangebyscore_elim hmem
      have := zmem_of_entry hv
      rw [hact] at this
      cases this
    by_cases hlen : 0 < (zrangebyscore st.active_tokens 0 tFetch).length
    · rw [cleanupTokens_eq_pos hlen]
      constructor
      · apply bool_eq_false_of_not
        intro hmem
        have h1 := zmem_zremrange_sub hmem
        rcases (zmem_zaddBulk_iff _ _ _).mp h1 with h | ⟨p, hp, hpt⟩
        · rw [hpool] at h
          cases h
        · obtain ⟨tok0, htok0, rfl⟩ := List.mem_map.mp hp
          have : tok0 = t := hpt
          subst this
          exact hnotexp htok0
      · show zmem (zremList st.active_tokens _) t = false
        rw [zmem_false_iff_zscore_none, zscore_zremList_not_mem _ hnotexp]
        exact hact2
    · rw [cleanupTokens_eq_zero hlen]
      constructor
      · apply bool_eq_false_of_not
        intro hmem
        have := zmem_zremrange_sub hmem
        rw [hpool] at this
        cases this
      · exact hact

theorem absent_run {cfg : Config} {t : Token} :
    ∀ (ops : List Op) (st : ServiceState), absent t st →
      (∀ op ∈ ops, avoidsInsert t op) → absent t (run cfg st ops) := by
  intro ops
  induction ops with
  | nil => intro st ha _; exact ha
  | cons op rest ih =>
    intro st ha hav
    exact ih _ (absent_step op ha (hav op (List.mem_cons_self _ _)))
      (fun q hq => hav q (List.mem_cons_of_mem _ hq))

/-- Claim C8: `revoke` (deleteToken) removes the token from both
collections and reports success even when it was absent; once a token is
absent, any sequence of operations that never re-mints it keeps it absent,
`lease` never returns it, and `renew`/`release` on it return false. -/
theorem C8_revoke_finality (cfg : Config) (tok : Token) :
    (∀ st, (deleteToken tok st).1 = true ∧ absent tok (deleteToken tok st).2) ∧
    (∀ st ops now, absent tok st → (∀ op ∈ ops, avoidsInsert tok op) →
      absent tok (run cfg st ops) ∧
      (assignToken cfg now (run cfg st ops)).1 ≠ some tok ∧
      (keepAlive cfg now tok (run cfg st ops)).1 = false ∧
      (unblockToken cfg now tok (run cfg st ops)).1 = false) := by
  constructor
  · intro st
    refine ⟨rfl, ?_, ?_⟩
    · show zmem (zrem st.token_pool tok) tok = false
      rw [zmem_false_iff_zscore_none]
      exact zscore_zrem_self _ _
    · show zmem (zrem st.active_tokens tok) tok = false
      rw [zmem_false_iff_zscore_none]
      exact zscore_zrem_self _ _
  · intro st ops now ha hav
    have haf : absent tok (run cfg st ops) := absent_run ops st ha hav
    refine ⟨haf, ?_, ?_, ?_⟩
    · intro hsome
      have := assignToken_mem hsome
      rw [haf.1] at this
      cases this
    · rw [keepAlive_absent haf.2 haf.1]
    · rw [unblockToken_absent haf.2]

theorem C8_revoke_finality_witness :
    ((deleteToken "x"
        { active_tokens := [("x", 2)], token_pool := [("y", 3)] }).1 = true ∧
      absent "x" (deleteToken "x"
        { active_tokens := [("x", 2)], token_pool := [("y", 3)] }).2) ∧
    ((assignToken defaultConfig 5
        (run defaultConfig
          (deleteToken "x"
            { active_tokens := [("x", 2)], token_pool := [("y", 3)] }).2
          [Op.lease 0, Op.issue 1 ["a"], Op.release 2 "y",
            Op.reclaim 3 (fun _ => 3) 3])).1 ≠ some "x" ∧
      (keepAlive defaultConfig 5 "x"
        (run defaultConfig
          (deleteToken "x"
            { active_tokens := [("x", 2)], token_pool := [("y", 3)] }).2
          [Op.lease 0, Op.issue 1 ["a"], Op.release 2 "y",
            Op.reclaim 3 (fun _ => 3) 3])).1 = false) := by
  have h1 := (C8_revoke_finality defaultConfig "x").1
    { active_tokens := [("x", 2)], token_pool := [("y", 3)] }
  have h2 := (C8_revoke_finality defaultConfig "x").2
    (deleteToken "x"
      { active_tokens := [("x", 2)], token_pool := [("y", 3)] }).2
    [Op.lease 0, Op.issue 1 ["a"], Op.release 2 "y",
      Op.reclaim 3 (fun _ => 3) 3] 5
    ⟨by decide, by decide⟩
    (by
      intro op hop
      fin_cases hop <;> simp [avoidsInsert])
  exact ⟨h1, h2.2.1, h2.2.2.1⟩
